import Mathlib

/-!
Shallow embedding of the duplicate-detection/highlighting core of the
spreadsheet utility (`processDuplicates` and its helpers in the source
file `src/unnamed/part_001`, lines 100-154), together with theorems
settling the specification claims about it.

The source operates on `rows : any[][]` decoded from a spreadsheet.  A
cell is a string, a number, or a boolean; a missing first cell behaves
like JavaScript `undefined` and is modelled through `List.head?`.
-/

namespace DupDetect

/-- A spreadsheet cell value as decoded by the external parser: the rows
handed to `processDuplicates` contain strings, numbers and booleans. -/
inductive Cell where
  | str (s : String)
  | num (n : Int)
  | boolean (b : Bool)
deriving DecidableEq, Repr

abbrev Row := List Cell

/-- JavaScript truthiness of a cell value: `""`, `0` and `false` are falsy. -/
def Cell.truthy : Cell → Bool
  | .str s => s ≠ ""
  | .num n => n ≠ 0
  | .boolean b => b

/-- JavaScript `String(x)` coercion of a cell value. -/
def Cell.jsString : Cell → String
  | .str s => s
  | .num n => Int.repr n
  | .boolean b => if b then "true" else "false"

/-- Lower-case hexadecimal digit, used by `JSON.stringify` control-character
escapes. -/
def hexDigit (n : Nat) : Char :=
  if n < 10 then Char.ofNat (48 + n) else Char.ofNat (87 + n)

/-- Escaping of a single character inside a JSON string literal, as performed
by `JSON.stringify`. -/
def escapeChar (c : Char) : String :=
  if c = '"' then "\\\""
  else if c = '\\' then "\\\\"
  else if c = '\x08' then "\\b"
  else if c = '\x09' then "\\t"
  else if c = '\x0a' then "\\n"
  else if c = '\x0c' then "\\f"
  else if c = '\x0d' then "\\r"
  else if c.toNat < 32 then
    "\\u00" ++ String.singleton (hexDigit (c.toNat / 16))
      ++ String.singleton (hexDigit (c.toNat % 16))
  else String.singleton c

/-- Escaping of a whole string as performed by `JSON.stringify`. -/
def escapeJson (s : String) : String :=
  String.join (s.data.map escapeChar)

/-- Serialization of one cell by `JSON.stringify`. -/
def cellJson : Cell → String
  | .str s => "\"" ++ escapeJson s ++ "\""
  | .num n => Int.repr n
  | .boolean b => if b then "true" else "false"

/-- Comma-separated serialization of the cells of a row, the body of the
JSON array produced by `JSON.stringify` on a row. -/
def jsonCells : List Cell → String
  | [] => ""
  | [c] => cellJson c
  | c :: c2 :: cs => cellJson c ++ "," ++ jsonCells (c2 :: cs)

/-- Model of `JSON.stringify(row)`, the full-row key of the source
(line 111, `criteria === 'row'` branch). -/
def jsonStringifyRow (r : Row) : String :=
  "[" ++ jsonCells r ++ "]"

/-- Whitespace as stripped by JavaScript `String.prototype.trim` (modelled
on the ASCII whitespace characters). -/
def isJsWhitespace (c : Char) : Bool :=
  c = ' ' || c = '\t' || c = '\n' || c = '\r' || c = '\x0b' || c = '\x0c'

/-- Model of JavaScript `String.prototype.trim`: strip leading and trailing
whitespace. -/
def jsTrim (s : String) : String :=
  ⟨((s.data.dropWhile isJsWhitespace).reverse.dropWhile isJsWhitespace).reverse⟩

/-- Model of JavaScript `String.prototype.toLowerCase` (on the ASCII range). -/
def jsToLower (s : String) : String :=
  ⟨s.data.map (fun c => if 'A' ≤ c && c ≤ 'Z' then Char.ofNat (c.toNat + 32) else c)⟩

/-- Model of `String(row[0] || '').trim().toLowerCase()`, the first-column
key of the source (line 111, other branch).  `row[0]` is `undefined` on an
empty row, and `x || ''` replaces any falsy value by the empty string. -/
def firstColKey (r : Row) : String :=
  let c := match r.head? with
    | some c => if c.truthy then c else Cell.str ""
    | none => Cell.str ""
  jsToLower (jsTrim c.jsString)

/-- The per-row key of source line 111:
`options.criteria === 'row' ? JSON.stringify(row) : String(row[0] || '').trim().toLowerCase()`. -/
def rowKey (criteria : String) (r : Row) : String :=
  if criteria == "row" then jsonStringifyRow r else firstColKey r

/-- The skip condition of source line 112: `key === "" || key === "[]"`. -/
def keyGuard (k : String) : Bool :=
  k == "" || k == "[]"

/-- The scan of source lines 110-115: one pass over the rows with their
index, threading the `seen` set of keys and emitting the duplicate row
indices in ascending order.  Returns (final seen set, duplicate indices). -/
def dupScan (crit : String) : List Row → Nat → List String → List String × List Nat
  | [], _, seen => (seen, [])
  | r :: rs, k, seen =>
    let key := rowKey crit r
    if keyGuard key then dupScan crit rs (k + 1) seen
    else if key ∈ seen then
      ((dupScan crit rs (k + 1) seen).1, k :: (dupScan crit rs (k + 1) seen).2)
    else dupScan crit rs (k + 1) (key :: seen)

/-- The `duplicatesIndices` set of source line 108, as the ascending list of
flagged row indices. -/
def duplicateIndices (crit : String) (rows : List Row) : List Nat :=
  (dupScan crit rows 0 []).2

/-- The `seen` set of source line 107 after the scan has processed all rows. -/
def seenKeys (crit : String) (rows : List Row) : List String :=
  (dupScan crit rows 0 []).1

/-- JavaScript `Array.prototype.filter` with an index-aware callback,
used by source line 121. -/
def filterIdx {α : Type} (p : Nat → Prop) [DecidablePred p] : List α → Nat → List α
  | [], _ => []
  | a :: as, k => if p k then a :: filterIdx p as (k + 1) else filterIdx p as (k + 1)

/-- Source line 121: `rows.filter((_, i) => !duplicatesIndices.has(i))`. -/
def removeDuplicates (crit : String) (rows : List Row) : List Row :=
  filterIdx (fun i => i ∉ duplicateIndices crit rows) rows 0

/-- The style object attached by source lines 134-143: yellow background
fill, black non-bold font, thin black border on all four sides. -/
structure Style where
  fillFgColorRgb : String
  fontColorRgb : String
  fontBold : Bool
  borderTopStyle : String
  borderTopColorRgb : String
  borderBottomStyle : String
  borderBottomColorRgb : String
  borderLeftStyle : String
  borderLeftColorRgb : String
  borderRightStyle : String
  borderRightColorRgb : String
deriving DecidableEq, Repr

/-- The concrete highlight style of source lines 134-143. -/
def highlightStyle : Style :=
  { fillFgColorRgb := "FFFF00"
    fontColorRgb := "000000"
    fontBold := false
    borderTopStyle := "thin", borderTopColorRgb := "000000"
    borderBottomStyle := "thin", borderBottomColorRgb := "000000"
    borderLeftStyle := "thin", borderLeftColorRgb := "000000"
    borderRightStyle := "thin", borderRightColorRgb := "000000" }

/-- The cell object built by source line 130: value, type tag, and an
optional style attached by the highlight branch. -/
structure StyledCell where
  v : Cell
  t : String
  s : Option Style
deriving DecidableEq, Repr

/-- Source line 130: `typeof cellValue === 'number' ? 'n' : 's'`. -/
def cellType : Cell → String
  | .num _ => "n"
  | _ => "s"

/-- JavaScript `Array.prototype.map` with an index-aware callback,
used by source line 125. -/
def mapIdxFrom {α β : Type} (f : Nat → α → β) : Nat → List α → List β
  | _, [] => []
  | k, a :: as => f k a :: mapIdxFrom f (k + 1) as

/-- Source lines 125-147: every cell is wrapped into a styled-cell object;
the highlight style is attached exactly when the row is flagged duplicate
and is not the header row (index 0). -/
def highlightDuplicates (crit : String) (rows : List Row) : List (List StyledCell) :=
  mapIdxFrom
    (fun i row => row.map (fun c =>
      { v := c, t := cellType c
        s := if i ∈ duplicateIndices crit rows ∧ i ≠ 0 then some highlightStyle
             else none }))
    0 rows

/-- The two shapes of table produced by `processDuplicates`: a plain table
from the remove branch, a styled table from the highlight branch. -/
inductive DupOutput where
  | removed (rows : List Row)
  | highlighted (rows : List (List StyledCell))
deriving DecidableEq, Repr

/-- The row-level behaviour of `processDuplicates` (source lines 105-149):
compute the duplicate indices, then branch on `options.mode === 'remove'`;
every other mode takes the highlight branch, and there is no error path. -/
def processRows (criteria mode : String) (rows : List Row) : DupOutput :=
  if mode == "remove" then .removed (removeDuplicates criteria rows)
  else .highlighted (highlightDuplicates criteria rows)

/-- Key of the row at index `i` (out-of-range indices give the empty row). -/
def keyAt (crit : String) (rows : List Row) (i : Nat) : String :=
  rowKey crit (rows.getD i [])

/-- The indices of the rows retained by the remove branch, in ascending
order. -/
def keptIndices (crit : String) (rows : List Row) : List Nat :=
  (List.range rows.length).filter (fun i => decide (i ∉ duplicateIndices crit rows))

/-! ### Unfolding lemmas for the scan -/

theorem keyAt_cons_zero (crit : String) (r : Row) (rs : List Row) :
    keyAt crit (r :: rs) 0 = rowKey crit r := rfl

theorem keyAt_cons_succ (crit : String) (r : Row) (rs : List Row) (d : Nat) :
    keyAt crit (r :: rs) (d + 1) = keyAt crit rs d := rfl

theorem dupScan_cons_guard (crit : String) (r : Row) (rs : List Row) (k : Nat)
    (seen : List String) (hg : keyGuard (rowKey crit r) = true) :
    dupScan crit (r :: rs) k seen = dupScan crit rs (k + 1) seen := by
  simp [dupScan, hg]

theorem dupScan_cons_dup (crit : String) (r : Row) (rs : List Row) (k : Nat)
    (seen : List String) (hg : keyGuard (rowKey crit r) = false)
    (hs : rowKey crit r ∈ seen) :
    dupScan crit (r :: rs) k seen =
      ((dupScan crit rs (k + 1) seen).1, k :: (dupScan crit rs (k + 1) seen).2) := by
  simp [dupScan, hg, hs]

theorem dupScan_cons_new (crit : String) (r : Row) (rs : List Row) (k : Nat)
    (seen : List String) (hg : keyGuard (rowKey crit r) = false)
    (hs : rowKey crit r ∉ seen) :
    dupScan crit (r :: rs) k seen = dupScan crit rs (k + 1) (rowKey crit r :: seen) := by
  simp [dupScan, hg, hs]

/-! ### Characterization of the duplicate-index set -/

theorem mem_dupScan_snd (crit : String) (rows : List Row) (k : Nat) (seen : List String)
    (i : Nat) :
    i ∈ (dupScan crit rows k seen).2 ↔
      ∃ d, d < rows.length ∧ i = k + d ∧ keyGuard (keyAt crit rows d) = false ∧
        (keyAt crit rows d ∈ seen ∨ ∃ e, e < d ∧ keyAt crit rows e = keyAt crit rows d) := by
  induction rows generalizing k seen with
  | nil => simp [dupScan]
  | cons r rs ih =>
    by_cases hg : keyGuard (rowKey crit r) = true
    · rw [dupScan_cons_guard crit r rs k seen hg, ih]
      constructor
      · rintro ⟨d, hd, hi, hgd, hc⟩
        refine ⟨d + 1, by simp only [List.length_cons]; omega, by omega,
          by rw [keyAt_cons_succ]; exact hgd, ?_⟩
        rcases hc with h | ⟨e, he, heq⟩
        · exact Or.inl (by rw [keyAt_cons_succ]; exact h)
        · exact Or.inr ⟨e + 1, by omega, by rw [keyAt_cons_succ, keyAt_cons_succ]; exact heq⟩
      · rintro ⟨d, hd, hi, hgd, hc⟩
        cases d with
        | zero =>
          rw [keyAt_cons_zero, hg] at hgd
          cases hgd
        | succ d =>
          rw [keyAt_cons_succ] at hgd
          refine ⟨d, by simp only [List.length_cons] at hd; omega, by omega, hgd, ?_⟩
          rcases hc with h | ⟨e, he, heq⟩
          · exact Or.inl (by rw [keyAt_cons_succ] at h; exact h)
          · cases e with
            | zero =>
              exfalso
              rw [keyAt_cons_zero, keyAt_cons_succ] at heq
              rw [← heq, hg] at hgd
              cases hgd
            | succ e =>
              exact Or.inr ⟨e, by omega, by
                rw [keyAt_cons_succ, keyAt_cons_succ] at heq; exact heq⟩
    · rw [Bool.not_eq_true] at hg
      by_cases hs : rowKey crit r ∈ seen
      · rw [dupScan_cons_dup crit r rs k seen hg hs]
        simp only [List.mem_cons]
        rw [ih]
        constructor
        · rintro (hik | ⟨d, hd, hi, hgd, hc⟩)
          · refine ⟨0, by simp, by omega, by rw [keyAt_cons_zero]; exact hg,
              Or.inl (by rw [keyAt_cons_zero]; exact hs)⟩
          · refine ⟨d + 1, by simp only [List.length_cons]; omega, by omega,
              by rw [keyAt_cons_succ]; exact hgd, ?_⟩
            rcases hc with h | ⟨e, he, heq⟩
            · exact Or.inl (by rw [keyAt_cons_succ]; exact h)
            · exact Or.inr ⟨e + 1, by omega, by
                rw [keyAt_cons_succ, keyAt_cons_succ]; exact heq⟩
        · rintro ⟨d, hd, hi, hgd, hc⟩
          cases d with
          | zero => exact Or.inl (by omega)
          | succ d =>
            rw [keyAt_cons_succ] at hgd
            refine Or.inr ⟨d, by simp only [List.length_cons] at hd; omega, by omega, hgd, ?_⟩
            rcases hc with h | ⟨e, he, heq⟩
            · exact Or.inl (by rw [keyAt_cons_succ] at h; exact h)
            · cases e with
              | zero =>
                rw [keyAt_cons_zero, keyAt_cons_succ] at heq
                exact Or.inl (heq ▸ hs)
              | succ e =>
                exact Or.inr ⟨e, by omega, by
                  rw [keyAt_cons_succ, keyAt_cons_succ] at heq; exact heq⟩
      · rw [dupScan_cons_new crit r rs k seen hg hs, ih]
        constructor
        · rintro ⟨d, hd, hi, hgd, hc⟩
          refine ⟨d + 1, by simp only [List.length_cons]; omega, by omega,
            by rw [keyAt_cons_succ]; exact hgd, ?_⟩
          rcases hc with h | ⟨e, he, heq⟩
          · rcases List.mem_cons.mp h with h0 | hseen
            · exact Or.inr ⟨0, by omega, by rw [keyAt_cons_zero, keyAt_cons_succ]; exact h0.symm⟩
            · exact Or.inl (by rw [keyAt_cons_succ]; exact hseen)
          · exact Or.inr ⟨e + 1, by omega, by
              rw [keyAt_cons_succ, keyAt_cons_succ]; exact heq⟩
        · rintro ⟨d, hd, hi, hgd, hc⟩
          cases d with
          | zero =>
            exfalso
            rcases hc with h | ⟨e, he, _⟩
            · rw [keyAt_cons_zero] at h; exact hs h
            · omega
          | succ d =>
            rw [keyAt_cons_succ] at hgd
            refine ⟨d, by simp only [List.length_cons] at hd; omega, by omega, hgd, ?_⟩
            rcases hc with h | ⟨e, he, heq⟩
            · exact Or.inl (List.mem_cons_of_mem _ (by rw [keyAt_cons_succ] at h; exact h))
            · cases e with
              | zero =>
                rw [keyAt_cons_zero, keyAt_cons_succ] at heq
                exact Or.inl (by rw [← heq]; exact List.mem_cons_self _ _)
              | succ e =>
                exact Or.inr ⟨e, by omega, by
                  rw [keyAt_cons_succ, keyAt_cons_succ] at heq; exact heq⟩

/-- Membership in the duplicate-index set: a row index is flagged iff it is
in range, its key passes the guard, and some strictly earlier row has the
same key. -/
theorem mem_duplicateIndices (crit : String) (rows : List Row) (i : Nat) :
    i ∈ duplicateIndices crit rows ↔
      i < rows.length ∧ keyGuard (keyAt crit rows i) = false ∧
        ∃ j, j < i ∧ keyAt crit rows j = keyAt crit rows i := by
  unfold duplicateIndices
  rw [mem_dupScan_snd]
  constructor
  · rintro ⟨d, hd, hi, hgd, hc⟩
    have hdi : i = d := by omega
    subst hdi
    rcases hc with h | ⟨e, he, heq⟩
    · cases h
    · exact ⟨hd, hgd, e, he, heq⟩
  · rintro ⟨hi, hgi, j, hj, heq⟩
    exact ⟨i, hi, by omega, hgi, Or.inr ⟨j, hj, heq⟩⟩

theorem mem_dupScan_fst (crit : String) (rows : List Row) (k : Nat) (seen : List String)
    (s : String) :
    s ∈ (dupScan crit rows k seen).1 ↔
      s ∈ seen ∨ ∃ r ∈ rows, rowKey crit r = s ∧ keyGuard s = false := by
  induction rows generalizing k seen with
  | nil => simp [dupScan]
  | cons r rs ih =>
    by_cases hg : keyGuard (rowKey crit r) = true
    · rw [dupScan_cons_guard crit r rs k seen hg, ih]
      constructor
      · rintro (h | ⟨r', hr', hk, hgs⟩)
        · exact Or.inl h
        · exact Or.inr ⟨r', List.mem_cons_of_mem _ hr', hk, hgs⟩
      · rintro (h | ⟨r', hr', hk, hgs⟩)
        · exact Or.inl h
        · rcases List.mem_cons.mp hr' with rfl | hr'
          · rw [← hk, hg] at hgs; cases hgs
          · exact Or.inr ⟨r', hr', hk, hgs⟩
    · rw [Bool.not_eq_true] at hg
      by_cases hs : rowKey crit r ∈ seen
      · rw [dupScan_cons_dup crit r rs k seen hg hs]
        simp only
        rw [ih]
        constructor
        · rintro (h | ⟨r', hr', hk, hgs⟩)
          · exact Or.inl h
          · exact Or.inr ⟨r', List.mem_cons_of_mem _ hr', hk, hgs⟩
        · rintro (h | ⟨r', hr', hk, hgs⟩)
          · exact Or.inl h
          · rcases List.mem_cons.mp hr' with rfl | hr'
            · exact Or.inl (hk ▸ hs)
            · exact Or.inr ⟨r', hr', hk, hgs⟩
      · rw [dupScan_cons_new crit r rs k seen hg hs, ih]
        constructor
        · rintro (h | ⟨r', hr', hk, hgs⟩)
          · rcases List.mem_cons.mp h with rfl | hseen
            · exact Or.inr ⟨r, List.mem_cons_self _ _, rfl, hg⟩
            · exact Or.inl hseen
          · exact Or.inr ⟨r', List.mem_cons_of_mem _ hr', hk, hgs⟩
        · rintro (h | ⟨r', hr', hk, hgs⟩)
          · exact Or.inl (List.mem_cons_of_mem _ h)
          · rcases List.mem_cons.mp hr' with rfl | hr'
            · exact Or.inl (by rw [← hk]; exact List.mem_cons_self _ _)
            · exact Or.inr ⟨r', hr', hk, hgs⟩

/-- Membership in the final seen set: exactly the unguarded keys of the rows. -/
theorem mem_seenKeys (crit : String) (rows : List Row) (s : String) :
    s ∈ seenKeys crit rows ↔
      ∃ r ∈ rows, rowKey crit r = s ∧ keyGuard s = false := by
  unfold seenKeys
  rw [mem_dupScan_fst]
  simp

theorem dupScan_snd_lb (crit : String) (rows : List Row) (k : Nat) (seen : List String)
    (i : Nat) (h : i ∈ (dupScan crit rows k seen).2) : k ≤ i := by
  rw [mem_dupScan_snd] at h
  obtain ⟨d, _, hi, _, _⟩ := h
  omega

theorem dupScan_snd_pairwise (crit : String) (rows : List Row) :
    ∀ (k : Nat) (seen : List String), List.Pairwise (· < ·) (dupScan crit rows k seen).2 := by
  induction rows with
  | nil => intro k seen; simp [dupScan]
  | cons r rs ih =>
    intro k seen
    by_cases hg : keyGuard (rowKey crit r) = true
    · rw [dupScan_cons_guard crit r rs k seen hg]; exact ih _ _
    · rw [Bool.not_eq_true] at hg
      by_cases hs : rowKey crit r ∈ seen
      · rw [dupScan_cons_dup crit r rs k seen hg hs]
        refine List.Pairwise.cons ?_ (ih _ _)
        intro x hx
        have := dupScan_snd_lb crit rs (k + 1) seen x hx
        omega
      · rw [dupScan_cons_new crit r rs k seen hg hs]; exact ih _ _

theorem duplicateIndices_pairwise (crit : String) (rows : List Row) :
    List.Pairwise (· < ·) (duplicateIndices crit rows) :=
  dupScan_snd_pairwise crit rows 0 []

theorem duplicateIndices_nodup (crit : String) (rows : List Row) :
    (duplicateIndices crit rows).Nodup :=
  (duplicateIndices_pairwise crit rows).imp Nat.ne_of_lt

theorem duplicateIndices_lt_length (crit : String) (rows : List Row) (i : Nat)
    (h : i ∈ duplicateIndices crit rows) : i < rows.length :=
  ((mem_duplicateIndices crit rows i).mp h).1

/-! ### The remove branch -/

theorem filterIdx_sublist {α : Type} (p : Nat → Prop) [DecidablePred p] (l : List α)
    (k : Nat) : List.Sublist (filterIdx p l k) l := by
  induction l generalizing k with
  | nil => simp [filterIdx]
  | cons a as ih =>
    simp only [filterIdx]
    by_cases h : p k
    · rw [if_pos h]; exact List.Sublist.cons₂ a (ih (k + 1))
    · rw [if_neg h]; exact List.Sublist.cons a (ih (k + 1))

theorem filterIdx_eq_map (p : Nat → Prop) [DecidablePred p] (l : List Row) (k : Nat) :
    filterIdx p l k =
      ((List.range' k l.length).filter (fun i => decide (p i))).map
        (fun i => l.getD (i - k) []) := by
  induction l generalizing k with
  | nil => simp [filterIdx]
  | cons a as ih =>
    have hr : List.range' k (a :: as).length = k :: List.range' (k + 1) as.length := by
      rw [List.length_cons, List.range'_succ]
    rw [hr, List.filter_cons]
    have htail :
        (((List.range' (k + 1) as.length).filter (fun i => decide (p i))).map
            (fun i => (a :: as).getD (i - k) [])) =
          ((List.range' (k + 1) as.length).filter (fun i => decide (p i))).map
            (fun i => as.getD (i - (k + 1)) []) := by
      apply List.map_congr_left
      intro i hi
      have hk1 : k + 1 ≤ i := (List.mem_range'_1.mp (List.mem_filter.mp hi).1).1
      have hik : i - k = (i - (k + 1)) + 1 := by omega
      rw [hik, List.getD_cons_succ]
    by_cases h : p k
    · rw [if_pos (by simpa using h)]
      simp only [filterIdx, if_pos h]
      rw [List.map_cons, htail, ih (k + 1)]
      simp
    · rw [if_neg (by simpa using h)]
      simp only [filterIdx, if_neg h]
      rw [htail, ih (k + 1)]

/-- The remove branch written positionally: the retained rows are exactly
those whose index survives the duplicate filter, in ascending index order. -/
theorem removeDuplicates_eq_map (crit : String) (rows : List Row) :
    removeDuplicates crit rows =
      (keptIndices crit rows).map (fun i => rows.getD i []) := by
  unfold removeDuplicates keptIndices
  rw [filterIdx_eq_map, ← List.range_eq_range']
  apply List.map_congr_left
  intro i _
  rw [Nat.sub_zero]

theorem removeDuplicates_sublist (crit : String) (rows : List Row) :
    List.Sublist (removeDuplicates crit rows) rows :=
  filterIdx_sublist _ rows 0

/-- The list of flagged indices is exactly the ascending enumeration of the
indices of `range rows.length` that are flagged. -/
theorem range_filter_mem_duplicateIndices (crit : String) (rows : List Row) :
    (List.range rows.length).filter
        (fun i => decide (i ∈ duplicateIndices crit rows)) =
      duplicateIndices crit rows := by
  apply List.eq_of_perm_of_sorted
    (r := fun a b : Nat => a ≤ b)
  · rw [List.perm_ext_iff_of_nodup
      ((List.nodup_range _).filter _) (duplicateIndices_nodup crit rows)]
    intro a
    simp only [List.mem_filter, List.mem_range, decide_eq_true_eq]
    constructor
    · rintro ⟨_, h⟩; exact h
    · intro h; exact ⟨duplicateIndices_lt_length crit rows a h, h⟩
  · exact List.Pairwise.imp Nat.le_of_lt
      ((List.pairwise_lt_range _).filter _)
  · exact List.Pairwise.imp Nat.le_of_lt (duplicateIndices_pairwise crit rows)

/-- Row count of the remove branch: input count minus the number of flagged
indices. -/
theorem removeDuplicates_length (crit : String) (rows : List Row) :
    (removeDuplicates crit rows).length =
      rows.length - (duplicateIndices crit rows).length := by
  rw [removeDuplicates_eq_map, List.length_map]
  unfold keptIndices
  have hsplit := List.length_eq_countP_add_countP
    (p := fun i => decide (i ∈ duplicateIndices crit rows)) (List.range rows.length)
  rw [List.length_range] at hsplit
  have h1 : ((List.range rows.length).filter
      (fun i => decide (i ∈ duplicateIndices crit rows))).length =
      (duplicateIndices crit rows).length := by
    rw [range_filter_mem_duplicateIndices]
  rw [List.countP_eq_length_filter, List.countP_eq_length_filter] at hsplit
  have hcongr : ((List.range rows.length).filter
        (fun i => ¬ decide (i ∈ duplicateIndices crit rows))) =
      ((List.range rows.length).filter
        (fun i => decide (i ∉ duplicateIndices crit rows))) := by
    apply List.filter_congr
    intro i _
    by_cases h : i ∈ duplicateIndices crit rows <;> simp [h]
  rw [hcongr] at hsplit
  omega

/-! ### The highlight branch -/

theorem mapIdxFrom_length {α β : Type} (f : Nat → α → β) (k : Nat) (l : List α) :
    (mapIdxFrom f k l).length = l.length := by
  induction l generalizing k with
  | nil => rfl
  | cons a as ih => simp [mapIdxFrom, ih]

theorem mapIdxFrom_getD {α β : Type} (f : Nat → α → β) (k : Nat) (l : List α) (i : Nat)
    (da : α) (db : β) (h : i < l.length) :
    (mapIdxFrom f k l).getD i db = f (k + i) (l.getD i da) := by
  induction l generalizing k i with
  | nil => cases h
  | cons a as ih =>
    cases i with
    | zero => simp [mapIdxFrom]
    | succ i =>
      simp only [mapIdxFrom, List.getD_cons_succ]
      rw [ih (k + 1) i (by simp only [List.length_cons] at h; omega)]
      congr 1
      omega

/-! ### Keys of degenerate and serialized rows -/

theorem keyGuard_eq_true_iff (k : String) : keyGuard k = true ↔ k = "" ∨ k = "[]" := by
  unfold keyGuard
  simp [beq_iff_eq]

theorem rowKey_row_eq (r : Row) : rowKey "row" r = jsonStringifyRow r := by
  simp [rowKey]

theorem rowKey_not_row (crit : String) (h : crit ≠ "row") (r : Row) :
    rowKey crit r = firstColKey r := by
  unfold rowKey
  rw [if_neg (by simpa using h)]

theorem keyGuard_rowKey_nil (crit : String) : keyGuard (rowKey crit []) = true := by
  unfold rowKey
  by_cases h : (crit == "row") = true
  · rw [if_pos h]; decide
  · rw [if_neg h]; decide

/-- A flagged row is never the empty row: the empty row's key is always
caught by the guard. -/
theorem mem_duplicateIndices_ne_nil (crit : String) (rows : List Row) (i : Nat)
    (h : i ∈ duplicateIndices crit rows) : rows.getD i [] ≠ [] := by
  intro hnil
  have hm := (mem_duplicateIndices crit rows i).mp h
  rw [keyAt, hnil, keyGuard_rowKey_nil] at hm
  exact absurd hm.2.1 (by simp)

theorem zero_not_mem_duplicateIndices (crit : String) (rows : List Row) :
    0 ∉ duplicateIndices crit rows := by
  intro h
  obtain ⟨_, _, j, hj, _⟩ := (mem_duplicateIndices crit rows 0).mp h
  omega

theorem toDigitsCore_length_ge (b : Nat) :
    ∀ (fuel n : Nat) (ds : List Char),
      ds.length ≤ (Nat.toDigitsCore b fuel n ds).length := by
  intro fuel
  induction fuel with
  | zero => intro n ds; simp [Nat.toDigitsCore]
  | succ fuel ih =>
    intro n ds
    simp only [Nat.toDigitsCore]
    by_cases h : n / b = 0
    · rw [if_pos h]; simp
    · rw [if_neg h]
      calc ds.length ≤ (Nat.digitChar (n % b) :: ds).length := by simp
        _ ≤ _ := ih (n / b) (Nat.digitChar (n % b) :: ds)

theorem natRepr_length_pos (n : Nat) : 0 < (Nat.repr n).length := by
  show 0 < ((Nat.toDigits 10 n).asString).length
  rw [List.length_asString]
  unfold Nat.toDigits
  simp only [Nat.toDigitsCore]
  by_cases h : n / 10 = 0
  · rw [if_pos h]; simp
  · rw [if_neg h]
    calc 0 < (Nat.digitChar (n % 10) :: []).length := by simp
      _ ≤ _ := toDigitsCore_length_ge 10 n (n / 10) _

theorem intRepr_length_pos (n : Int) : 0 < (Int.repr n).length := by
  cases n with
  | ofNat m => exact natRepr_length_pos m
  | negSucc m =>
    show 0 < ("-" ++ Nat.repr (m + 1)).length
    rw [String.length_append]
    have h1 : ("-" : String).length = 1 := by decide
    omega

theorem cellJson_length_pos (c : Cell) : 0 < (cellJson c).length := by
  cases c with
  | str s =>
    show 0 < ("\"" ++ escapeJson s ++ "\"").length
    rw [String.length_append, String.length_append]
    have h1 : ("\"" : String).length = 1 := by decide
    omega
  | num n => exact intRepr_length_pos n
  | boolean b => cases b <;> decide

theorem jsonCells_length_pos (c : Cell) (cs : List Cell) :
    0 < (jsonCells (c :: cs)).length := by
  cases cs with
  | nil => simpa [jsonCells] using cellJson_length_pos c
  | cons c2 cs =>
    show 0 < (cellJson c ++ "," ++ jsonCells (c2 :: cs)).length
    rw [String.length_append, String.length_append]
    have := cellJson_length_pos c
    omega

/-- Under the full-row criterion the key guard fires exactly on the empty
row: any non-empty row serializes to a string longer than `"[]"`. -/
theorem keyGuard_fullRow_iff (r : Row) :
    keyGuard (rowKey "row" r) = true ↔ r = [] := by
  constructor
  · intro h
    by_contra hne
    obtain ⟨c, cs, rfl⟩ := List.exists_cons_of_ne_nil hne
    rw [rowKey_row_eq] at h
    have hlen : (jsonStringifyRow (c :: cs)).length =
        (jsonCells (c :: cs)).length + 2 := by
      show (("[" ++ jsonCells (c :: cs)) ++ "]").length = _
      rw [String.length_append, String.length_append]
      have h1 : ("[" : String).length = 1 := by decide
      have h2 : ("]" : String).length = 1 := by decide
      omega
    have hpos := jsonCells_length_pos c cs
    rcases (keyGuard_eq_true_iff _).mp h with h0 | h2
    · rw [h0] at hlen
      have hz : ("" : String).length = 0 := by decide
      omega
    · rw [h2] at hlen
      have h2l : ("[]" : String).length = 2 := by decide
      omega
  · rintro rfl
    rw [rowKey_row_eq]
    decide

/-! ### Congruence in the criterion string -/

theorem dupScan_congr (c1 c2 : String) (hk : ∀ r, rowKey c1 r = rowKey c2 r) :
    ∀ (rows : List Row) (k : Nat) (seen : List String),
      dupScan c1 rows k seen = dupScan c2 rows k seen := by
  intro rows
  induction rows with
  | nil => intro k seen; rfl
  | cons r rs ih =>
    intro k seen
    simp only [dupScan, hk r]
    rw [ih, ih]

theorem duplicateIndices_congr (c1 c2 : String) (hk : ∀ r, rowKey c1 r = rowKey c2 r)
    (rows : List Row) : duplicateIndices c1 rows = duplicateIndices c2 rows := by
  unfold duplicateIndices
  rw [dupScan_congr c1 c2 hk]

theorem rowKey_congr_not_row (c1 : String) (h : c1 ≠ "row") (r : Row) :
    rowKey c1 r = rowKey "col1" r := by
  rw [rowKey_not_row c1 h, rowKey_not_row "col1" (by decide)]

theorem removeDuplicates_congr_not_row (crit : String) (h : crit ≠ "row")
    (rows : List Row) : removeDuplicates crit rows = removeDuplicates "col1" rows := by
  unfold removeDuplicates
  have hd : duplicateIndices crit rows = duplicateIndices "col1" rows :=
    duplicateIndices_congr crit "col1" (rowKey_congr_not_row crit h) rows
  simp only [hd]

theorem highlightDuplicates_congr_not_row (crit : String) (h : crit ≠ "row")
    (rows : List Row) :
    highlightDuplicates crit rows = highlightDuplicates "col1" rows := by
  unfold highlightDuplicates
  have hd : duplicateIndices crit rows = duplicateIndices "col1" rows :=
    duplicateIndices_congr crit "col1" (rowKey_congr_not_row crit h) rows
  simp only [hd]

theorem processRows_congr_not_row (crit mode : String) (h : crit ≠ "row")
    (rows : List Row) : processRows crit mode rows = processRows "col1" mode rows := by
  unfold processRows
  by_cases hm : (mode == "remove") = true
  · rw [if_pos hm, if_pos hm, removeDuplicates_congr_not_row crit h]
  · rw [if_neg hm, if_neg hm, highlightDuplicates_congr_not_row crit h]

/-! ### Kept indices and idempotence of the remove branch -/

theorem getD_mem_of_lt {α : Type} (l : List α) (i : Nat) (d : α) (h : i < l.length) :
    l.getD i d ∈ l := by
  rw [List.getD_eq_getElem l d h]
  exact List.getElem_mem h

theorem mem_keptIndices (crit : String) (rows : List Row) (i : Nat) :
    i ∈ keptIndices crit rows ↔ i < rows.length ∧ i ∉ duplicateIndices crit rows := by
  unfold keptIndices
  simp [List.mem_filter]

theorem keptIndices_pairwise (crit : String) (rows : List Row) :
    List.Pairwise (· < ·) (keptIndices crit rows) :=
  (List.pairwise_lt_range _).filter _

theorem keptIndices_length (crit : String) (rows : List Row) :
    (keptIndices crit rows).length = (removeDuplicates crit rows).length := by
  rw [removeDuplicates_eq_map, List.length_map]

theorem keyAt_removeDuplicates (crit : String) (rows : List Row) (d : Nat)
    (hd : d < (keptIndices crit rows).length) :
    keyAt crit (removeDuplicates crit rows) d =
      keyAt crit rows ((keptIndices crit rows).getD d 0) := by
  unfold keyAt
  rw [removeDuplicates_eq_map]
  rw [List.getD_eq_getElem _ _ (by rw [List.length_map]; exact hd)]
  rw [List.getElem_map]
  rw [← List.getD_eq_getElem (keptIndices crit rows) 0 hd]

/-- Key fact behind idempotence: the output of the remove branch contains no
flagged index at all, since its rows are the first occurrences of their
keys in the original table. -/
theorem duplicateIndices_removeDuplicates (crit : String) (rows : List Row) :
    duplicateIndices crit (removeDuplicates crit rows) = [] := by
  apply List.eq_nil_iff_forall_not_mem.mpr
  intro q hq
  obtain ⟨hqlen, hg, e, he, heq⟩ := (mem_duplicateIndices _ _ q).mp hq
  have hqk : q < (keptIndices crit rows).length := by
    rw [keptIndices_length]; exact hqlen
  have hek : e < (keptIndices crit rows).length := by omega
  have h2 := keyAt_removeDuplicates crit rows q hqk
  have h1 := keyAt_removeDuplicates crit rows e hek
  set i2 := (keptIndices crit rows).getD q 0 with hi2
  set i1 := (keptIndices crit rows).getD e 0 with hi1
  have hmem2 : i2 ∈ keptIndices crit rows := getD_mem_of_lt _ _ _ hqk
  obtain ⟨hi2len, hi2not⟩ := (mem_keptIndices crit rows i2).mp hmem2
  have hlt : i1 < i2 := by
    have hp := List.pairwise_iff_get.mp (keptIndices_pairwise crit rows)
      ⟨e, hek⟩ ⟨q, hqk⟩ (by exact he)
    rw [← List.getD_eq_get _ 0 hek, ← List.getD_eq_get _ 0 hqk] at hp
    exact hp
  apply hi2not
  apply (mem_duplicateIndices crit rows i2).mpr
  refine ⟨hi2len, by rw [← h2]; exact hg, i1, hlt, ?_⟩
  rw [← h1, ← h2]
  exact heq

theorem filterIdx_of_forall {α : Type} (p : Nat → Prop) [DecidablePred p] (l : List α)
    (k : Nat) (h : ∀ i, p i) : filterIdx p l k = l := by
  induction l generalizing k with
  | nil => rfl
  | cons a as ih =>
    simp only [filterIdx, if_pos (h k)]
    rw [ih]

/-! ### Style characterization of the highlight branch -/

theorem highlight_length (crit : String) (rows : List Row) :
    (highlightDuplicates crit rows).length = rows.length :=
  mapIdxFrom_length _ _ _

theorem highlight_values (crit : String) (rows : List Row) (i : Nat) :
    ((highlightDuplicates crit rows).getD i []).map StyledCell.v = rows.getD i [] := by
  by_cases h : i < rows.length
  · unfold highlightDuplicates
    rw [mapIdxFrom_getD _ _ _ _ ([] : Row) _ h]
    rw [List.map_map]
    exact (List.map_congr_left fun c _ => rfl).trans (List.map_id _)
  · have h1 : (highlightDuplicates crit rows).getD i [] = [] :=
      List.getD_eq_default _ _ (by rw [highlight_length]; omega)
    have h2 : rows.getD i [] = [] := List.getD_eq_default _ _ (by omega)
    rw [h1, h2]
    rfl

theorem highlight_cells_style (crit : String) (rows : List Row) (i : Nat)
    (sc : StyledCell) (hsc : sc ∈ (highlightDuplicates crit rows).getD i []) :
    sc.s = if i ∈ duplicateIndices crit rows ∧ i ≠ 0 then some highlightStyle
           else none := by
  by_cases h : i < rows.length
  · unfold highlightDuplicates at hsc
    rw [mapIdxFrom_getD _ _ _ _ ([] : Row) _ h] at hsc
    simp only [Nat.zero_add] at hsc
    obtain ⟨c, _, rfl⟩ := List.mem_map.mp hsc
    rfl
  · rw [List.getD_eq_default _ _ (by rw [highlight_length]; omega)] at hsc
    cases hsc

/-! ### Claim theorems -/

/-- C1 (amended): a row at index `i` is placed in the duplicate-index-set iff
its key under the policy's criterion is neither the empty string nor the
two-character string consisting of an opening and a closing square bracket,
and some earlier row (lower index, including the header row at index 0)
produced the same key; consequently the first occurrence of any key is never
marked duplicate. -/
theorem dup_index_iff_earlier_same_key (crit : String) (rows : List Row) (i : Nat) :
    i ∈ duplicateIndices crit rows ↔
      i < rows.length ∧ keyAt crit rows i ≠ "" ∧ keyAt crit rows i ≠ "[]" ∧
        ∃ j, j < i ∧ keyAt crit rows j = keyAt crit rows i := by
  rw [mem_duplicateIndices]
  have hg : keyGuard (keyAt crit rows i) = false ↔
      keyAt crit rows i ≠ "" ∧ keyAt crit rows i ≠ "[]" := by
    rw [← Bool.not_eq_true, keyGuard_eq_true_iff]
    tauto
  tauto

/-- C1 (counterexample to the claim as stated): under the first-column
criterion a row whose first cell is the literal string of an opening and a
closing bracket has a non-empty key, an earlier row produced the same key,
and yet the row is not marked duplicate, because the source guard
`key === "" || key === "[]"` also fires on that key. -/
theorem dup_index_iff_counterexample :
    keyAt "col1" [[Cell.str "[]"], [Cell.str "[]"]] 1 ≠ "" ∧
    keyAt "col1" [[Cell.str "[]"], [Cell.str "[]"]] 0 =
      keyAt "col1" [[Cell.str "[]"], [Cell.str "[]"]] 1 ∧
    1 ∉ duplicateIndices "col1" [[Cell.str "[]"], [Cell.str "[]"]] := by
  refine ⟨by decide, by decide, by decide⟩

/-- C2: the remove branch keeps exactly the rows whose index is not flagged,
in their original relative order (it is a sublist of the input, equal to the
ascending enumeration of unflagged indices), and its row count is the input
count minus the number of flagged indices (the flagged list has no
repetitions, so its length is the cardinality of the duplicate-index-set). -/
theorem remove_spec (crit : String) (rows : List Row) :
    removeDuplicates crit rows =
        (keptIndices crit rows).map (fun i => rows.getD i []) ∧
      List.Sublist (removeDuplicates crit rows) rows ∧
      (duplicateIndices crit rows).Nodup ∧
      (removeDuplicates crit rows).length =
        rows.length - (duplicateIndices crit rows).length :=
  ⟨removeDuplicates_eq_map crit rows, removeDuplicates_sublist crit rows,
    duplicateIndices_nodup crit rows, removeDuplicates_length crit rows⟩

/-- C3: the highlight branch keeps the number of rows and every cell value,
and attaches the highlight style (yellow fill, thin black borders on all
four sides, non-bold black font) to exactly the cells of flagged rows other
than index 0; flagged rows are never empty, and index 0 is never flagged. -/
theorem highlight_spec (crit : String) (rows : List Row) :
    (highlightDuplicates crit rows).length = rows.length ∧
    (∀ i, ((highlightDuplicates crit rows).getD i []).map StyledCell.v =
      rows.getD i []) ∧
    (∀ i, ∀ sc ∈ (highlightDuplicates crit rows).getD i [],
        sc.s = if i ∈ duplicateIndices crit rows ∧ i ≠ 0 then some highlightStyle
               else none) ∧
    (∀ i ∈ duplicateIndices crit rows, rows.getD i [] ≠ []) ∧
    0 ∉ duplicateIndices crit rows :=
  ⟨highlight_length crit rows, highlight_values crit rows,
    highlight_cells_style crit rows,
    fun i h => mem_duplicateIndices_ne_nil crit rows i h,
    zero_not_mem_duplicateIndices crit rows⟩

/-- C3 (witness): concrete two-row table with a duplicated first column. -/
theorem highlight_spec_witness :
    ((highlightDuplicates "col1" [[Cell.str "a"], [Cell.str "a"]]).getD 1 []).map
        StyledCell.v = [Cell.str "a"] ∧
    (⟨Cell.str "a", "s", some highlightStyle⟩ : StyledCell).s =
      (if 1 ∈ duplicateIndices "col1" [[Cell.str "a"], [Cell.str "a"]] ∧ 1 ≠ 0
       then some highlightStyle else none) ∧
    ([[Cell.str "a"], [Cell.str "a"]] : List Row).getD 1 [] ≠ [] := by
  refine ⟨?_, ?_, ?_⟩
  · exact ((highlight_spec "col1" [[Cell.str "a"], [Cell.str "a"]]).2.1 1).trans
      (by decide)
  · exact (highlight_spec "col1" [[Cell.str "a"], [Cell.str "a"]]).2.2.1 1
      ⟨Cell.str "a", "s", some highlightStyle⟩ (by decide)
  · exact (highlight_spec "col1" [[Cell.str "a"], [Cell.str "a"]]).2.2.2.1 1 (by decide)

/-- C4 (counterexample to the claim as stated): an unrecognized criterion and
an unrecognized action do not fail; the operation still produces an output
table (the highlight branch with the first-column criterion), because the
source has no validity check and no `InvalidPolicy` error path at all. -/
theorem invalid_policy_counterexample :
    processRows "bogus" "nonsense" [[Cell.str "a"]] =
      DupOutput.highlighted [[⟨Cell.str "a", "s", none⟩]] := by
  decide

/-- C4 (amended): an unrecognized criterion is treated as the first-column
criterion and an unrecognized action as highlight; the operation always
returns an output table and never fails. -/
theorem invalid_policy_defaults (criteria mode : String) (rows : List Row)
    (hc : criteria ≠ "row") :
    processRows criteria mode rows = processRows "col1" mode rows ∧
    (mode ≠ "remove" →
      processRows criteria mode rows =
        DupOutput.highlighted (highlightDuplicates "col1" rows)) := by
  refine ⟨processRows_congr_not_row criteria mode hc rows, fun hm => ?_⟩
  rw [processRows_congr_not_row criteria mode hc rows]
  unfold processRows
  rw [if_neg (by simpa using hm)]

/-- C4 (witness): a concrete invalid policy applied to a one-row table. -/
theorem invalid_policy_defaults_witness :
    processRows "bogus" "whatever" [[Cell.str "a"]] =
        processRows "col1" "whatever" [[Cell.str "a"]] ∧
      processRows "bogus" "whatever" [[Cell.str "a"]] =
        DupOutput.highlighted (highlightDuplicates "col1" [[Cell.str "a"]]) := by
  have h := invalid_policy_defaults "bogus" "whatever" [[Cell.str "a"]] (by decide)
  exact ⟨h.1, h.2 (by decide)⟩

/-- C5: the remove branch is idempotent — running the detection again on its
own output with the same policy returns the output unchanged. -/
theorem remove_idempotent (crit : String) (rows : List Row) :
    removeDuplicates crit (removeDuplicates crit rows) = removeDuplicates crit rows := by
  have h := duplicateIndices_removeDuplicates crit rows
  show filterIdx (fun i => i ∉ duplicateIndices crit (removeDuplicates crit rows))
      (removeDuplicates crit rows) 0 = removeDuplicates crit rows
  simp only [h]
  exact filterIdx_of_forall _ _ 0 fun i => List.not_mem_nil i

/-- C6: a row whose key is empty (an empty row, or a first-column key that
is the empty string, which covers empty and whitespace-only first cells) is
never marked duplicate and its key never enters the seen set; moreover a
table whose rows all have empty first-column keys yields no duplicates under
the first-column criterion. -/
theorem empty_key_never_flagged (crit : String) (rows : List Row) (i : Nat)
    (hk : rows.getD i [] = [] ∨ rowKey crit (rows.getD i []) = "") :
    (i ∉ duplicateIndices crit rows ∧
      rowKey crit (rows.getD i []) ∉ seenKeys crit rows) ∧
    ((∀ r ∈ rows, firstColKey r = "") → duplicateIndices "col1" rows = []) := by
  have hg : keyGuard (rowKey crit (rows.getD i [])) = true := by
    rcases hk with h | h
    · rw [h]; exact keyGuard_rowKey_nil crit
    · rw [h]; decide
  constructor
  · constructor
    · intro hmem
      have hfalse := ((mem_duplicateIndices crit rows i).mp hmem).2.1
      have hkey : keyAt crit rows i = rowKey crit (rows.getD i []) := rfl
      rw [hkey, hg] at hfalse
      cases hfalse
    · intro hmem
      obtain ⟨r, _, _, hgf⟩ := (mem_seenKeys crit rows _).mp hmem
      rw [hg] at hgf
      cases hgf
  · intro hall
    apply List.eq_nil_iff_forall_not_mem.mpr
    intro q hq
    obtain ⟨hlen, hgq, _⟩ := (mem_duplicateIndices _ _ q).mp hq
    have hmemq : rows.getD q [] ∈ rows := getD_mem_of_lt rows q [] hlen
    have hq1 : keyAt "col1" rows q = firstColKey (rows.getD q []) :=
      rowKey_not_row "col1" (by decide) _
    rw [hq1, hall _ hmemq] at hgq
    cases hgq

/-- C6 (witness): first cells that are whitespace-only or empty. -/
theorem empty_key_never_flagged_witness :
    (0 ∉ duplicateIndices "col1" [[Cell.str " "], [Cell.str ""]] ∧
      rowKey "col1" (([[Cell.str " "], [Cell.str ""]] : List Row).getD 0 []) ∉
        seenKeys "col1" [[Cell.str " "], [Cell.str ""]]) ∧
    duplicateIndices "col1" [[Cell.str " "], [Cell.str ""]] = [] := by
  have h := empty_key_never_flagged "col1" [[Cell.str " "], [Cell.str ""]] 0
    (Or.inr (by decide))
  exact ⟨h.1, h.2 (by decide)⟩

/-- C7 (amended): in the remove branch's output, a row whose key passes the
empty-key guard never shares its key with an earlier output row (rows with
guarded keys, such as several empty-first-column rows, are all retained and
may share keys), and the first occurrence of every distinct key of the input
is present in the output. -/
theorem remove_output_keys (crit : String) (rows : List Row) :
    (∀ p q, q < p →
        keyGuard (keyAt crit (removeDuplicates crit rows) p) = false →
        keyAt crit (removeDuplicates crit rows) q ≠
          keyAt crit (removeDuplicates crit rows) p) ∧
    (∀ i, i < rows.length →
        (∀ j, j < i → keyAt crit rows j ≠ keyAt crit rows i) →
        rows.getD i [] ∈ removeDuplicates crit rows) := by
  constructor
  · intro p q hqp hg heq
    by_cases hp : p < (removeDuplicates crit rows).length
    · have hmem : p ∈ duplicateIndices crit (removeDuplicates crit rows) :=
        (mem_duplicateIndices _ _ p).mpr ⟨hp, hg, q, hqp, heq⟩
      rw [duplicateIndices_removeDuplicates] at hmem
      cases hmem
    · have hnil : (removeDuplicates crit rows).getD p [] = [] :=
        List.getD_eq_default _ _ (by omega)
      have hkey : keyAt crit (removeDuplicates crit rows) p =
          rowKey crit ((removeDuplicates crit rows).getD p []) := rfl
      rw [hkey, hnil, keyGuard_rowKey_nil] at hg
      cases hg
  · intro i hi hfirst
    have hnot : i ∉ duplicateIndices crit rows := by
      intro h
      obtain ⟨_, _, j, hj, heq⟩ := (mem_duplicateIndices _ _ i).mp h
      exact hfirst j hj heq
    have hkept : i ∈ keptIndices crit rows :=
      (mem_keptIndices crit rows i).mpr ⟨hi, hnot⟩
    rw [removeDuplicates_eq_map]
    exact List.mem_map_of_mem _ hkept

/-- C7 (witness): a three-row table with one full-row duplicate. -/
theorem remove_output_keys_witness :
    keyAt "row" (removeDuplicates "row" [[Cell.str "a"], [Cell.str "a"], [Cell.str "b"]]) 0 ≠
      keyAt "row" (removeDuplicates "row" [[Cell.str "a"], [Cell.str "a"], [Cell.str "b"]]) 1 ∧
    ([[Cell.str "a"], [Cell.str "a"], [Cell.str "b"]] : List Row).getD 2 [] ∈
      removeDuplicates "row" [[Cell.str "a"], [Cell.str "a"], [Cell.str "b"]] := by
  refine ⟨?_, ?_⟩
  · exact (remove_output_keys "row" [[Cell.str "a"], [Cell.str "a"], [Cell.str "b"]]).1
      1 0 (by decide) (by decide)
  · exact (remove_output_keys "row" [[Cell.str "a"], [Cell.str "a"], [Cell.str "b"]]).2
      2 (by decide) (by decide)

/-- C7 (counterexample to the claim as stated): two retained rows of the
remove branch's output can share a key — the rows with empty first-column
keys are all retained, and the output row at index 2 has the same key as the
earlier output row at index 1. -/
theorem remove_output_keys_counterexample :
    removeDuplicates "col1" [[Cell.str "a"], [Cell.str ""], [Cell.str ""]] =
        [[Cell.str "a"], [Cell.str ""], [Cell.str ""]] ∧
    keyAt "col1" (removeDuplicates "col1"
        [[Cell.str "a"], [Cell.str ""], [Cell.str ""]]) 1 =
      keyAt "col1" (removeDuplicates "col1"
        [[Cell.str "a"], [Cell.str ""], [Cell.str ""]]) 2 := by
  refine ⟨by decide, by decide⟩

/-- C8: on the empty input table the operation returns an empty table for
every criterion and mode, and there is no error path. -/
theorem empty_table_ok (criteria mode : String) :
    processRows criteria mode [] = DupOutput.removed [] ∨
      processRows criteria mode [] = DupOutput.highlighted [] := by
  unfold processRows
  by_cases hm : (mode == "remove") = true
  · left; rw [if_pos hm]; rfl
  · right; rw [if_neg hm]; rfl

/-- C9: under the first-column criterion a falsy first cell (such as the
number 0 or the boolean false) is coerced to the empty string by
`String(row[0] || '')`, so the row's key is empty, the row is never marked
duplicate, and the empty key never enters the seen set. -/
theorem falsy_first_cell (rows : List Row) (i : Nat) (c : Cell)
    (hc : (rows.getD i []).head? = some c) (hf : c.truthy = false) :
    rowKey "col1" (rows.getD i []) = "" ∧
    i ∉ duplicateIndices "col1" rows ∧
    "" ∉ seenKeys "col1" rows := by
  have hkey : rowKey "col1" (rows.getD i []) = "" := by
    rw [rowKey_not_row "col1" (by decide)]
    unfold firstColKey
    rw [hc]
    simp only [hf, Bool.false_eq_true, if_false]
    decide
  refine ⟨hkey, ?_, ?_⟩
  · intro h
    have hfalse := ((mem_duplicateIndices _ _ i).mp h).2.1
    have hkey2 : keyAt "col1" rows i = "" := hkey
    rw [hkey2] at hfalse
    exact absurd hfalse (by decide)
  · intro h
    obtain ⟨r, _, _, hgf⟩ := (mem_seenKeys _ _ _).mp h
    exact absurd hgf (by decide)

/-- C9 (witness): two rows both starting with the number 0 are not treated
as duplicates of each other. -/
theorem falsy_first_cell_witness :
    rowKey "col1" (([[Cell.num 0], [Cell.num 0]] : List Row).getD 1 []) = "" ∧
    1 ∉ duplicateIndices "col1" [[Cell.num 0], [Cell.num 0]] ∧
    "" ∉ seenKeys "col1" [[Cell.num 0], [Cell.num 0]] :=
  falsy_first_cell [[Cell.num 0], [Cell.num 0]] 1 (Cell.num 0) (by decide) (by decide)

/-- C10: under the full-row criterion the empty-key guard fires exactly on
the zero-cell row, so a row of all-empty-string cells has a non-empty key;
of two equal such rows the later one is marked duplicate, hence the remove
branch shortens the table and the highlight branch styles its cells. -/
theorem fullRow_empty_key_only_empty_row (rows : List Row) (i j : Nat)
    (hij : i < j) (hj : j < rows.length)
    (heq : rows.getD i [] = rows.getD j []) (hne : rows.getD j [] ≠ []) :
    (∀ r : Row, keyGuard (rowKey "row" r) = true ↔ r = []) ∧
    j ∈ duplicateIndices "row" rows ∧
    (removeDuplicates "row" rows).length < rows.length ∧
    (∀ sc ∈ (highlightDuplicates "row" rows).getD j [], sc.s = some highlightStyle) := by
  have hjk : keyGuard (keyAt "row" rows j) = false := by
    cases hgb : keyGuard (rowKey "row" (rows.getD j [])) with
    | false => exact hgb
    | true => exact absurd ((keyGuard_fullRow_iff _).mp hgb) hne
  have hmem : j ∈ duplicateIndices "row" rows :=
    (mem_duplicateIndices _ _ j).mpr
      ⟨hj, hjk, i, hij, by unfold keyAt; rw [heq]⟩
  refine ⟨keyGuard_fullRow_iff, hmem, ?_, ?_⟩
  · rw [removeDuplicates_length]
    have hpos : 0 < (duplicateIndices "row" rows).length :=
      List.length_pos_of_mem hmem
    exact Nat.sub_lt (by omega) hpos
  · intro sc hsc
    have h := highlight_cells_style "row" rows j sc hsc
    rw [if_pos ⟨hmem, by omega⟩] at h
    exact h

/-- C10 (witness): two identical rows of two empty-string cells each. -/
theorem fullRow_empty_key_only_empty_row_witness :
    1 ∈ duplicateIndices "row" [[Cell.str "", Cell.str ""], [Cell.str "", Cell.str ""]] ∧
    (removeDuplicates "row"
        [[Cell.str "", Cell.str ""], [Cell.str "", Cell.str ""]]).length <
      ([[Cell.str "", Cell.str ""], [Cell.str "", Cell.str ""]] : List Row).length ∧
    (⟨Cell.str "", "s", some highlightStyle⟩ : StyledCell).s = some highlightStyle := by
  have h := fullRow_empty_key_only_empty_row
    [[Cell.str "", Cell.str ""], [Cell.str "", Cell.str ""]] 0 1
    (by decide) (by decide) (by decide) (by decide)
  exact ⟨h.2.1, h.2.2.1, h.2.2.2 _ (by decide)⟩

end DupDetect
